import Mathlib

/-!
Verification of the retrieval-augmented QA pipeline
(`build_database.py`, `title_extraction.py`, `app.py`).

Strings from the Python code are modelled as `List Char`; the vector
distances returned by the index are modelled as rationals (`ℚ`).
External services (arXiv lookup, PDF reading, Semantic Scholar HTTP,
the generation service) are modelled as explicit inputs so the pure
control flow of the repository code can be analysed.
-/

instance {ε α : Type} [DecidableEq ε] [DecidableEq α] : DecidableEq (Except ε α) := fun a b =>
  match a, b with
  | .error e, .error f =>
    if h : e = f then .isTrue (congrArg Except.error h)
    else .isFalse (fun hh => h (Except.error.inj hh))
  | .error _, .ok _ => .isFalse (fun hh => Except.noConfusion hh)
  | .ok _, .error _ => .isFalse (fun hh => Except.noConfusion hh)
  | .ok x, .ok y =>
    if h : x = y then .isTrue (congrArg Except.ok h)
    else .isFalse (fun hh => h (Except.ok.inj hh))

/-- `range(0, stop, step)` from Python for a positive `step`:
the start offsets `0, step, 2*step, ...` strictly below `stop`. -/
def pyRangeUp (stop step : Nat) : List Nat :=
  (List.range ((stop + step - 1) / step)).map (fun k => k * step)

/-- `chunking(full_text, chunk_size, overlap)` from `src/build_database.py`:
`[full_text[i:i+chunk_size] for i in range(0, len(full_text), chunk_size-overlap)]`.
The Python slice `full_text[i:i+chunk_size]` is `(full_text.drop i).take chunk_size`.
`range` raises `ValueError` when the step `chunk_size - overlap` is zero
(modelled by the `error` case) and yields the empty range when the step is
negative (start `0`, stop `len(full_text) ≥ 0`). -/
def chunking (full_text : List Char) (chunk_size overlap : Nat) :
    Except String (List (List Char)) :=
  if chunk_size = overlap then Except.error "range() arg 3 must not be zero"
  else if chunk_size < overlap then Except.ok []
  else Except.ok ((pyRangeUp full_text.length (chunk_size - overlap)).map
    (fun i => (full_text.drop i).take chunk_size))

/-- The conjunct of claim C2 under test: every window except possibly the
final one has exactly `chunk_size` characters. -/
def allFullExceptLast (ws : List (List Char)) (chunk_size : Nat) : Prop :=
  ∀ i (h : i < ws.length), i + 1 < ws.length → (ws.get ⟨i, h⟩).length = chunk_size

instance (ws : List (List Char)) (C : Nat) : Decidable (allFullExceptLast ws C) := by
  unfold allFullExceptLast; infer_instance

/-- Token estimate of a chunk, from `src/app.py`: `doc_tokens = len(doc) // 4`. -/
def docTokens (doc : List Char) : Nat := doc.length / 4

/-- The budgeting loop of `answer_question` (`src/app.py`): walk the ranked
chunks, accept a chunk only while `total_tokens + doc_tokens < maxTokens`,
and `break` at the first chunk that would reach or exceed the budget.
Returns the selected `(doc, dist)` pairs and the final `total_tokens`. -/
def budgetLoop (maxTokens : Nat) : List (List Char × ℚ) → Nat → List (List Char × ℚ) × Nat
  | [], total => ([], total)
  | (doc, dist) :: rest, total =>
    if total + docTokens doc < maxTokens then
      let r := budgetLoop maxTokens rest (total + docTokens doc)
      ((doc, dist) :: r.1, r.2)
    else ([], total)

/-- Number of chunks the budgeting loop accepts (used to state that the
selection is a prefix of the ranked sequence). -/
def selLen (maxTokens : Nat) : List (List Char × ℚ) → Nat → Nat
  | [], _ => 0
  | (doc, _) :: rest, total =>
    if total + docTokens doc < maxTokens then selLen maxTokens rest (total + docTokens doc) + 1
    else 0

/-- Total estimated token cost of a list of ranked chunks. -/
def runCost (l : List (List Char × ℚ)) : Nat := (l.map (fun p => docTokens p.1)).sum

/-- `MAX_CONTEXT_TOKENS` from `src/app.py`. -/
def MAX_CONTEXT_TOKENS : Nat := 4000

/-- `sorted(zip(documents, distances), key=lambda x: x[1])` from
`src/app.py`: a stable sort of the candidate pairs by ascending distance
(Python `sorted` is stable; `List.mergeSort` is the stable sort here). -/
def sortByDistance (pairs : List (List Char × ℚ)) : List (List Char × ℚ) :=
  pairs.mergeSort (fun a b => decide (a.2 ≤ b.2))

/-- The ranked candidate sequence handed to the budgeting pass. -/
def rankedCandidates (documents : List (List Char)) (distances : List ℚ) :
    List (List Char × ℚ) :=
  sortByDistance (documents.zip distances)

/-- `selected_chunks_with_distances` as computed by `answer_question`. -/
def selectedChunks (documents : List (List Char)) (distances : List ℚ) :
    List (List Char × ℚ) :=
  (budgetLoop MAX_CONTEXT_TOKENS (rankedCandidates documents distances) 0).1

/-- `retrieved_context = "\n\n".join(selected_context)` from `src/app.py`. -/
def retrievedContext (documents : List (List Char)) (distances : List ℚ) : List Char :=
  List.intercalate ['\n', '\n'] ((selectedChunks documents distances).map Prod.fst)

/-- Fixed text of the prompt template before the context block. -/
def promptPre : List Char :=
  ("\n    You are an AI Research Assistant. Answer the user\x27s question based *only* on the following context.\n    If the context does not contain the answer, say \"I cannot find the answer in the provided documents\"\n    Context:\n    ---\n    ").data

/-- Fixed text of the prompt template between the context block and the question. -/
def promptMid : List Char := ("\n    ---\n\n    Question: ").data

/-- Fixed text of the prompt template after the question. -/
def promptPost : List Char :=
  ("\n\n    Answer with specific references to papers when possible\n    ").data

/-- The f-string prompt assembled by `answer_question`. -/
def ragPrompt (documents : List (List Char)) (distances : List ℚ)
    (question : List Char) : List Char :=
  promptPre ++ retrievedContext documents distances ++ promptMid ++ question ++ promptPost

/-- The query-time path of `answer_question` (`src/app.py`), given the
documents and distances returned by the index for the question and the
outcome of the generation service on a prompt (`Except.error e` models the
exception branch).  The first component is the HTTP-level outcome: either
`(500, "LLM Error: " ++ e)` from the `except` branch or the
`(final_answer, len(selected_chunks_with_distances))` pair.  The second
component counts how many generation-service calls were performed (the code
calls the service exactly once and never retries). -/
def answer_question (documents : List (List Char)) (distances : List ℚ)
    (gen : List Char → Except (List Char) (List Char)) (question : List Char) :
    Except (Nat × List Char) (List Char × Nat) × Nat :=
  match gen (ragPrompt documents distances question) with
  | .ok content => (.ok (content, (selectedChunks documents distances).length), 1)
  | .error e => (.error (500, ("LLM Error: ").data ++ e), 1)

/-- A document of `n` identical characters (used for concrete budget inputs). -/
def mkDoc (n : Nat) : List Char := List.replicate n 'a'

/-- The distance-ordered chunk list with token costs `[1000, 3500, 200]`
named by claim C1 (`len // 4` of documents of length 4000, 14000, 800). -/
def c1Chunks : List (List Char × ℚ) :=
  [(mkDoc 4000, 0), (mkDoc 14000, 1), (mkDoc 800, 2)]

/-- Python truthiness of an optional string: `None` and `""` are falsy.
This models the `if title:` tests in `get_paper_title_multi_strategy`. -/
def truthy (o : Option (List Char)) : Bool :=
  match o with
  | none => false
  | some s => !s.isEmpty

/-- `filename.replace(".pdf", "")`: remove every (non-overlapping,
left-to-right) occurrence of `.pdf`, as Python `str.replace` does. -/
def removePdf : List Char → List Char
  | '.' :: 'p' :: 'd' :: 'f' :: rest => removePdf rest
  | c :: rest => c :: removePdf rest
  | [] => []

/-- `name.replace('_', ' ')`: a single-character `str.replace` is a map. -/
def replaceUnderscores (s : List Char) : List Char :=
  s.map (fun c => if c = '_' then ' ' else c)

/-- Python `str.strip()`: drop whitespace from both ends. -/
def pyStrip (s : List Char) : List Char :=
  (((s.dropWhile Char.isWhitespace).reverse).dropWhile Char.isWhitespace).reverse

/-- Worker for Python `str.split()`: split on whitespace runs, no empty words;
`acc` holds the current word reversed. -/
def splitGo : List Char → List Char → List (List Char)
  | [], acc => if acc.isEmpty then [] else [acc.reverse]
  | c :: rest, acc =>
    if c.isWhitespace then
      if acc.isEmpty then splitGo rest [] else acc.reverse :: splitGo rest []
    else splitGo rest (c :: acc)

/-- Python `str.split()` with no argument. -/
def pySplit (s : List Char) : List (List Char) := splitGo s []

/-- Python `str.capitalize()`: first character upper-cased, the rest
lower-cased (ASCII letters, as `Char.toUpper`/`Char.toLower` do). -/
def pyCapitalize : List Char → List Char
  | [] => []
  | c :: rest => c.toUpper :: rest.map Char.toLower

/-- `re.sub(r"^\d+_", "", name)`: remove a leading run of digits followed by
an underscore, when present (`\d` modelled as the ASCII digits). -/
def stripLeadingNum (s : List Char) : List Char :=
  let ds := s.takeWhile Char.isDigit
  if ds.isEmpty then s
  else
    match s.drop ds.length with
    | '_' :: rest => rest
    | _ => s

/-- `re.sub(r"^\d{4}\.\d{4,5}(v\d+)?", "", name)`: remove a leading arXiv-style
identifier when present.  `\d{4,5}` is greedy (five digits when available),
and the optional `(v\d+)?` group consumes `v` plus digits when they follow. -/
def stripArxivId (s : List Char) : List Char :=
  let p4 := s.take 4
  if p4.length = 4 ∧ p4.all Char.isDigit then
    match s.drop 4 with
    | '.' :: rest =>
      let ds := (rest.takeWhile Char.isDigit).take 5
      if 4 ≤ ds.length then
        let rest2 := rest.drop ds.length
        match rest2 with
        | 'v' :: rest3 =>
          let vs := rest3.takeWhile Char.isDigit
          if vs.isEmpty then rest2 else rest3.drop vs.length
        | _ => rest2
      else s
    | _ => s
  else s

/-- `re.match(r"(\d{4}\.\d{4,5})(v\d+)?", ...)` group 1: the arXiv identifier
at the start of the string, when the pattern matches there. -/
def arxivMatch (s : List Char) : Option (List Char) :=
  let p4 := s.take 4
  if p4.length = 4 ∧ p4.all Char.isDigit then
    match s.drop 4 with
    | '.' :: rest =>
      let ds := (rest.takeWhile Char.isDigit).take 5
      if 4 ≤ ds.length then some (p4 ++ '.' :: ds) else none
    | _ => none
  else none

/-- The intermediate `name` of `clean_filename_as_title` just before the
`if name:` test: extension removed, leading number prefix removed, arXiv id
removed, underscores replaced by spaces, stripped. -/
def cleanedName (filename : List Char) : List Char :=
  pyStrip (replaceUnderscores (stripArxivId (stripLeadingNum (removePdf filename))))

/-- `clean_filename_as_title` from `src/title_extraction.py`.  The second
component is the provenance tag. -/
def clean_filename_as_title (filename : List Char) : List Char × String :=
  let name := cleanedName filename
  if !name.isEmpty then
    (List.intercalate [' '] ((pySplit name).map pyCapitalize), "filename")
  else (removePdf filename, "filename")

/-- A Semantic Scholar HTTP response: status code and the `data` list of
result titles (one `title` field per result). -/
structure SSResponse where
  status : Nat
  data : List (List Char)

/-- `search_semantic_scholar` from `src/title_extraction.py`, applied to the
outcome of the HTTP request (`none` models a raised exception): a title is
returned only on HTTP 200 with a non-empty `data` list. -/
def search_semantic_scholar (resp : Option SSResponse) : Option (List Char) :=
  match resp with
  | none => none
  | some r => if r.status = 200 then r.data.head? else none

/-- The external context of one title resolution: the arXiv lookup (by
identifier), the PDF metadata title field, the result of the heuristic
first-page text scan, and the Semantic Scholar response per query text.
Each strategy in the code wraps its network or PDF access in
`try ... except` returning `None`, so `Option` results model them. -/
structure TitleEnv where
  arxivLookup : List Char → Option (List Char)
  pdfMetaTitle : Option (List Char)
  pdfTextTitle : Option (List Char)
  semScholar : List Char → Option SSResponse

/-- `extract_title_from_arxiv` from `src/title_extraction.py`: match the
arXiv pattern against `filename.replace(".pdf", "")` and query the external
index with group 1 on a match (the code always pairs a returned title with
the tag `arxiv`, so only the title is carried here). -/
def extract_title_from_arxiv (env : TitleEnv) (filename : List Char) :
    Option (List Char) :=
  match arxivMatch (removePdf filename) with
  | some arxiv_id => env.arxivLookup arxiv_id
  | none => none

/-- `extract_title_from_pdf_metadata` from `src/title_extraction.py`: accept
the embedded metadata title only if truthy and its stripped length is
strictly between 10 and 200. -/
def extract_title_from_pdf_metadata (env : TitleEnv) : Option (List Char) :=
  match env.pdfMetaTitle with
  | some t0 =>
    if t0.isEmpty then none
    else
      let t := pyStrip t0
      if 10 < t.length ∧ t.length < 200 then some t else none
  | none => none

/-- `get_paper_title_multi_strategy` from `src/title_extraction.py`: the
ordered fallback chain with the Semantic Scholar verification pass after a
successful heuristic text scan.  Each `if title:` truthiness test of the
code is `truthy` here; the provenance tags are the literals of the code. -/
def get_paper_title_multi_strategy (env : TitleEnv) (filename : List Char) :
    List Char × String :=
  let a := extract_title_from_arxiv env filename
  if truthy a then (a.getD [], "arxiv")
  else
    let m := extract_title_from_pdf_metadata env
    if truthy m then (m.getD [], "pdf_metadata")
    else
      let t := env.pdfTextTitle
      if truthy t then
        let v := search_semantic_scholar (env.semScholar (t.getD []))
        if truthy v then (v.getD [], "semantic_scholar")
        else (t.getD [], "pdf_text")
      else clean_filename_as_title filename

/-- One entry of `paper_titles.json` as the ingestion loop reads it: the
`title` key when present (`titles_cache.get(pdf_file, {}).get("title", pdf_file)`). -/
structure CacheEntry where
  titleField : Option (List Char)
deriving DecidableEq

/-- What `build_database.py` hands to the vector store for one chunk: the
enriched document text and its metadata `{"source": pdf_file, "title": title}`.
The code appends `all_chunks` and `metadatas` in lockstep, so an entry pairs
a chunk with the metadata created in the same loop iteration. -/
structure IndexEntry where
  doc : List Char
  source : List Char
  title : List Char
deriving DecidableEq

/-- `titles_cache.get(pdf_file, {}).get("title", pdf_file)` from
`src/build_database.py`: the cached title, falling back to the raw filename
when the file has no cache entry or its entry has no `title` key. -/
def cacheTitle (cache : List Char → Option CacheEntry) (pdf_file : List Char) :
    List Char :=
  match cache pdf_file with
  | some e => e.titleField.getD pdf_file
  | none => pdf_file

/-- The `f"Paper Title: {title}\n\n"` header prepended to every chunk. -/
def titleHeader (title : List Char) : List Char :=
  ("Paper Title: ").data ++ title ++ ['\n', '\n']

/-- The index entries produced from one PDF by the ingestion loop of
`src/build_database.py`: skipped when `read_pdf` failed (`none`) or returned
a falsy (empty) text, otherwise one entry per chunk of `chunking(document_text)`
with the default `chunk_size=3000, overlap=200`. -/
def docEntries (cache : List Char → Option CacheEntry) (pdf_file : List Char)
    (document_text : Option (List Char)) : List IndexEntry :=
  match document_text with
  | none => []
  | some text =>
    if text.isEmpty then []
    else
      match chunking text 3000 200 with
      | .ok chunks =>
        chunks.map (fun c =>
          { doc := titleHeader (cacheTitle cache pdf_file) ++ c
            source := pdf_file
            title := cacheTitle cache pdf_file })
      | .error _ => []

/-- The whole ingestion sweep over the PDF files (each with the text
`read_pdf` produced for it, `none` on failure). -/
def ingestEntries (cache : List Char → Option CacheEntry)
    (docs : List (List Char × Option (List Char))) : List IndexEntry :=
  docs.flatMap (fun p => docEntries cache p.1 p.2)

/-- Environment with every external title source failing. -/
def envAllFail : TitleEnv :=
  { arxivLookup := fun _ => none
    pdfMetaTitle := none
    pdfTextTitle := none
    semScholar := fun _ => none }

/-- Environment where the arXiv lookup succeeds for `1706.03762` while the
later strategies would also have produced results. -/
def envArxivHit : TitleEnv :=
  { arxivLookup := fun aid =>
      if aid = ("1706.03762").data then some (("Attention Is All You Need").data) else none
    pdfMetaTitle := some (("Some Embedded Metadata Title").data)
    pdfTextTitle := some (("Some Scanned Heading").data)
    semScholar := fun _ => some ⟨200, [("Another Title").data]⟩ }

/-- Environment whose heuristic scan succeeds and whose Semantic Scholar
search answers HTTP 200 with one result whose title is the empty string. -/
def envEmptyVerified : TitleEnv :=
  { arxivLookup := fun _ => none
    pdfMetaTitle := none
    pdfTextTitle := some (("Deep Residual Learning").data)
    semScholar := fun _ => some ⟨200, [[]]⟩ }

/-- Environment whose heuristic scan succeeds and whose Semantic Scholar
search verifies it with a non-empty title. -/
def envVerified : TitleEnv :=
  { arxivLookup := fun _ => none
    pdfMetaTitle := none
    pdfTextTitle := some (("deep residual lerning").data)
    semScholar := fun _ =>
      some ⟨200, [("Deep Residual Learning for Image Recognition").data]⟩ }

/-- The empty title cache (`paper_titles.json` with no entry for any file). -/
def cacheMiss : List Char → Option CacheEntry := fun _ => none

/-- A one-document corpus for concrete ingestion runs. -/
def docsW : List (List Char × Option (List Char)) := [(("a.pdf").data, some ['x'])]

/-- The single index entry the ingestion loop produces from `docsW` under
`cacheMiss`. -/
def entryW : IndexEntry :=
  { doc := titleHeader (("a.pdf").data) ++ ['x']
    source := ("a.pdf").data
    title := ("a.pdf").data }

/-- A one-document corpus whose filename carries an underscore and the
`.pdf` extension. -/
def docsW2 : List (List Char × Option (List Char)) := [(("my_paper.pdf").data, some ['y'])]

/-- The single index entry the ingestion loop produces from `docsW2` under
`cacheMiss`. -/
def entryW2 : IndexEntry :=
  { doc := titleHeader (("my_paper.pdf").data) ++ ['y']
    source := ("my_paper.pdf").data
    title := ("my_paper.pdf").data }

/-- The amended behaviour of `chunking` for `0 < L` and `overlap < chunk_size`:
the call succeeds; window `i` is the slice of the text starting at
`i * (chunk_size - overlap)` (so start offsets increase by exactly
`chunk_size - overlap`); a window has `min chunk_size (L - start)` characters,
hence exactly `chunk_size` whenever `start + chunk_size ≤ L` (trailing windows
— possibly more than just the final one — are shorter); a full window shares
exactly `overlap` characters with its successor; the last window ends at `L`;
and every character position of the text is covered by some window. -/
def chunkingSpec (text : List Char) (C O : Nat) : Prop :=
  ∃ ws, chunking text C O = Except.ok ws ∧
    0 < ws.length ∧
    (∀ i (h : i < ws.length), ws.get ⟨i, h⟩ = (text.drop (i * (C - O))).take C) ∧
    (∀ i (h : i < ws.length),
      (ws.get ⟨i, h⟩).length = min C (text.length - i * (C - O))) ∧
    (∀ i (h : i < ws.length), i * (C - O) + C ≤ text.length →
      (ws.get ⟨i, h⟩).length = C) ∧
    (∀ i (hi : i < ws.length) (hi1 : i + 1 < ws.length), i * (C - O) + C ≤ text.length →
      (ws.get ⟨i, hi⟩).drop (C - O) = (ws.get ⟨i + 1, hi1⟩).take O ∧
      ((ws.get ⟨i, hi⟩).drop (C - O)).length = O) ∧
    (∀ h : 0 < ws.length,
      (ws.length - 1) * (C - O) +
        (ws.get ⟨ws.length - 1, Nat.sub_lt h Nat.one_pos⟩).length = text.length) ∧
    (∀ j, j < text.length → ∃ i, ∃ h : i < ws.length,
      i * (C - O) ≤ j ∧ j < i * (C - O) + (ws.get ⟨i, h⟩).length)

theorem budgetLoop_take (m : Nat) (l : List (List Char × ℚ)) : ∀ total,
    (budgetLoop m l total).1 = l.take (selLen m l total) := by
  induction l with
  | nil => intro total; simp [budgetLoop, selLen]
  | cons p rest ih =>
    intro total
    obtain ⟨doc, dist⟩ := p
    by_cases h : total + docTokens doc < m
    · simp [budgetLoop, selLen, h, ih]
    · simp [budgetLoop, selLen, h]

theorem selLen_le_length (m : Nat) (l : List (List Char × ℚ)) : ∀ total,
    selLen m l total ≤ l.length := by
  induction l with
  | nil => intro total; simp [selLen]
  | cons p rest ih =>
    intro total
    obtain ⟨doc, dist⟩ := p
    by_cases h : total + docTokens doc < m
    · simpa [selLen, h] using ih (total + docTokens doc)
    · simp [selLen, h]

theorem selLen_accept (m : Nat) (l : List (List Char × ℚ)) : ∀ (total i : Nat)
    (h : i < l.length), i < selLen m l total →
    total + runCost (l.take i) + docTokens ((l.get ⟨i, h⟩).1) < m := by
  induction l with
  | nil => intro total i h; simp at h
  | cons p rest ih =>
    intro total i h hi
    obtain ⟨doc, dist⟩ := p
    by_cases hc : total + docTokens doc < m
    · cases i with
      | zero =>
        have hget : (((doc, dist) :: rest).get ⟨0, h⟩).1 = doc := rfl
        rw [hget]
        simpa [runCost] using hc
      | succ j =>
        have hj : j < rest.length := by simpa using h
        have hij : j < selLen m rest (total + docTokens doc) := by
          simp only [selLen, if_pos hc] at hi
          omega
        have hrec := ih (total + docTokens doc) j hj hij
        have hget : (((doc, dist) :: rest).get ⟨j + 1, h⟩).1 = (rest.get ⟨j, hj⟩).1 := rfl
        rw [hget, List.take_succ_cons]
        have hcost : runCost ((doc, dist) :: rest.take j) =
            docTokens doc + runCost (rest.take j) := by
          simp [runCost]
        rw [hcost]
        omega
    · simp [selLen, hc] at hi

theorem selLen_stop (m : Nat) (l : List (List Char × ℚ)) : ∀ (total : Nat)
    (p : List Char × ℚ), (l.drop (selLen m l total)).head? = some p →
    m ≤ total + runCost (l.take (selLen m l total)) + docTokens p.1 := by
  induction l with
  | nil => intro total p hp; simp [selLen] at hp
  | cons q rest ih =>
    intro total p hp
    obtain ⟨doc, dist⟩ := q
    by_cases hc : total + docTokens doc < m
    · have hsel : selLen m ((doc, dist) :: rest) total =
          selLen m rest (total + docTokens doc) + 1 := by
        simp [selLen, hc]
      rw [hsel] at hp ⊢
      rw [List.drop_succ_cons] at hp
      rw [List.take_succ_cons]
      have hrec := ih (total + docTokens doc) p hp
      have hcost : runCost ((doc, dist) :: rest.take (selLen m rest (total + docTokens doc))) =
          docTokens doc + runCost (rest.take (selLen m rest (total + docTokens doc))) := by
        simp [runCost]
      rw [hcost]
      omega
    · have hsel : selLen m ((doc, dist) :: rest) total = 0 := by
        simp [selLen, hc]
      rw [hsel] at hp ⊢
      rw [List.drop_zero] at hp
      have hpd : p = (doc, dist) := by
        simp [List.head?] at hp
        exact hp.symm
      rw [List.take_zero]
      have hz : runCost ([] : List (List Char × ℚ)) = 0 := by simp [runCost]
      rw [hz, hpd]
      show m ≤ total + 0 + docTokens doc
      omega

theorem head?_drop_get (l : List (List Char × ℚ)) : ∀ (k : Nat) (h : k < l.length),
    (l.drop k).head? = some (l.get ⟨k, h⟩) := by
  induction l with
  | nil => intro k h; simp at h
  | cons a as ih =>
    intro k h
    cases k with
    | zero => rfl
    | succ j => exact ih j (by simpa using h)

/-- C1: for every ranked chunk list and budget, the budgeting pass of
`answer_question` selects exactly the maximal prefix of the distance-ascending
sequence on which each accepted chunk keeps `running_total + len(chunk)//4`
strictly below the budget, and it halts at the first chunk whose inclusion
would reach or exceed the budget (so nothing after that point is taken, even
if it would fit); in particular on token costs `[1000, 3500, 200]` with
budget 4000 exactly the first chunk is selected. -/
theorem budget_greedy_halt :
    (∀ (maxTokens : Nat) (l : List (List Char × ℚ)),
      (budgetLoop maxTokens l 0).1 = l.take (selLen maxTokens l 0) ∧
      selLen maxTokens l 0 ≤ l.length ∧
      (∀ i (h : i < l.length), i < selLen maxTokens l 0 →
        runCost (l.take i) + docTokens ((l.get ⟨i, h⟩).1) < maxTokens) ∧
      (∀ h : selLen maxTokens l 0 < l.length,
        maxTokens ≤ runCost (l.take (selLen maxTokens l 0)) +
          docTokens ((l.get ⟨selLen maxTokens l 0, h⟩).1))) ∧
    (budgetLoop 4000 c1Chunks 0).1 = [(mkDoc 4000, (0 : ℚ))] := by
  constructor
  · intro maxTokens l
    refine ⟨budgetLoop_take maxTokens l 0, selLen_le_length maxTokens l 0, ?_, ?_⟩
    · intro i h hi
      have := selLen_accept maxTokens l 0 i h hi
      omega
    · intro h
      have := selLen_stop maxTokens l 0 (l.get ⟨selLen maxTokens l 0, h⟩)
        (head?_drop_get l (selLen maxTokens l 0) h)
      omega
  · have h1 : docTokens (mkDoc 4000) = 1000 := by
      simp only [docTokens, mkDoc, List.length_replicate]
    have h2 : docTokens (mkDoc 14000) = 3500 := by
      simp only [docTokens, mkDoc, List.length_replicate]
    simp only [c1Chunks, budgetLoop, h1, h2]
    norm_num

/-- Concrete instance of the C1 theorem: on the cost-`[1000, 3500, 200]`
list the loop accepts chunk 0 (condition `0 + 1000 < 4000` discharged via
the theorem) and the selection is the one-element prefix. -/
theorem budget_greedy_halt_w :
    runCost (c1Chunks.take 0) +
      docTokens ((c1Chunks.get ⟨0, by decide⟩).1) < 4000 ∧
    (budgetLoop 4000 c1Chunks 0).1 = c1Chunks.take (selLen 4000 c1Chunks 0) := by
  have h1 : docTokens (mkDoc 4000) = 1000 := by
    simp only [docTokens, mkDoc, List.length_replicate]
  have hsel : 0 < selLen 4000 c1Chunks 0 := by
    simp only [c1Chunks, selLen, h1]
    norm_num
  exact ⟨(budget_greedy_halt.1 4000 c1Chunks).2.2.1 0 (by decide) hsel,
    (budget_greedy_halt.1 4000 c1Chunks).1⟩

/-- C6 (counterexample): with `overlap = 3 > chunk_size = 2` the call is not
rejected; it silently returns the empty chunk list. -/
theorem chunking_no_guard_cex :
    chunking ['a', 'b', 'c'] 2 3 = Except.ok [] := by decide

/-- C6 (amended): `chunking` has no explicit guard; when `overlap = chunk_size`
the zero-step `range` raises (modelled as the error result), but when
`overlap > chunk_size` the negative-step `range` is empty and the call
silently returns `[]` for every text. -/
theorem chunking_step_amended (text : List Char) (C O : Nat) :
    (O = C → chunking text C O = Except.error "range() arg 3 must not be zero") ∧
    (C < O → chunking text C O = Except.ok []) := by
  constructor
  · intro h; simp [chunking, h]
  · intro h
    have hne : ¬ C = O := by omega
    simp [chunking, hne, h]

/-- Concrete instance of the amended C6 statement at `chunk_size = overlap = 2`. -/
theorem chunking_step_amended_w :
    chunking ['a'] 2 2 = Except.error "range() arg 3 must not be zero" :=
  (chunking_step_amended ['a'] 2 2).1 rfl

/-- C2 (counterexample): on a 12-character text with `chunk_size = 10` and
`overlap = 5` the produced windows have lengths `[10, 7, 2]`: the second
window is not the final one yet has fewer than `chunk_size` characters,
refuting the claim that every window except possibly the final one has
exactly `chunk_size` characters. -/
theorem chunking_nonfinal_short_cex :
    chunking (List.replicate 12 'a') 10 5 =
      Except.ok [List.replicate 10 'a', List.replicate 7 'a', List.replicate 2 'a'] ∧
    ¬ allFullExceptLast
      [List.replicate 10 'a', List.replicate 7 'a', List.replicate 2 'a'] 10 := by
  constructor
  · decide
  · decide

theorem ceil_mul_ge (L s : Nat) (hs : 0 < s) : L ≤ ((L + s - 1) / s) * s := by
  have hdm := Nat.div_add_mod (L + s - 1) s
  have hr : (L + s - 1) % s < s := Nat.mod_lt _ hs
  rw [Nat.mul_comm]
  generalize hP : s * ((L + s - 1) / s) = P at hdm ⊢
  generalize hR : (L + s - 1) % s = r at hdm hr
  omega

theorem ceil_pred_mul_lt (L s : Nat) (hs : 0 < s) (hL : 0 < L) :
    (((L + s - 1) / s) - 1) * s < L := by
  have hdm := Nat.div_add_mod (L + s - 1) s
  have hr : (L + s - 1) % s < s := Nat.mod_lt _ hs
  rw [Nat.sub_mul, Nat.one_mul, Nat.mul_comm]
  generalize hP : s * ((L + s - 1) / s) = P at hdm ⊢
  generalize hR : (L + s - 1) % s = r at hdm hr
  omega

theorem last_window_end (L s C : Nat) (hs : 0 < s) (hL : 0 < L) (hsC : s ≤ C) :
    (((L + s - 1) / s) - 1) * s + min C (L - (((L + s - 1) / s) - 1) * s) = L := by
  have hub := ceil_mul_ge L s hs
  have hpos : 0 < (L + s - 1) / s := Nat.div_pos (by omega) hs
  have hlb := ceil_pred_mul_lt L s hs hL
  have hmul : ((L + s - 1) / s) * s = (((L + s - 1) / s) - 1) * s + s := by
    have h1 : (L + s - 1) / s - 1 + 1 = (L + s - 1) / s := Nat.succ_pred_eq_of_pos hpos
    calc ((L + s - 1) / s) * s = ((L + s - 1) / s - 1 + 1) * s := by rw [h1]
      _ = ((L + s - 1) / s - 1) * s + 1 * s := by rw [Nat.add_mul]
      _ = ((L + s - 1) / s - 1) * s + s := by rw [Nat.one_mul]
  generalize hM : ((L + s - 1) / s) * s = Mm at hub hmul
  generalize hB : ((L + s - 1) / s - 1) * s = B at hlb hmul ⊢
  omega

theorem coverage_in_window (L s C j : Nat) (hs : 0 < s) (hsC : s ≤ C) (hj : j < L) :
    j / s * s ≤ j ∧ j < j / s * s + min C (L - j / s * s) := by
  have hdm := Nat.div_add_mod j s
  have hr : j % s < s := Nat.mod_lt _ hs
  have hcm : j / s * s = s * (j / s) := Nat.mul_comm _ _
  rw [hcm]
  generalize hP : s * (j / s) = P at hdm ⊢
  generalize hR : j % s = r at hdm hr
  omega

theorem coverage_bound (L s j : Nat) (hs : 0 < s) (hj : j < L) :
    j / s < (L + s - 1) / s := by
  have h1 := ceil_mul_ge L s hs
  rw [Nat.div_lt_iff_lt_mul hs]
  generalize hM : ((L + s - 1) / s) * s = Mm at h1 ⊢
  omega

theorem range_map_get (m : Nat) (fn : Nat → List Char) (i : Nat)
    (h : i < ((List.range m).map fn).length) :
    ((List.range m).map fn).get ⟨i, h⟩ = fn i := by
  rw [List.get_eq_getElem]
  simp

theorem chunking_ok (text : List Char) (C O : Nat) (hO : O < C) :
    chunking text C O =
      Except.ok ((List.range ((text.length + (C - O) - 1) / (C - O))).map
        (fun k => (text.drop (k * (C - O))).take C)) := by
  unfold chunking pyRangeUp
  rw [if_neg (by omega), if_neg (by omega), List.map_map]
  rfl

/-- C2 (amended): for `0 < L` and `overlap < chunk_size` the windows of
`chunking` start at offsets `0, C-O, 2(C-O), ...`; window `i` has
`min C (L - i*(C-O))` characters — exactly `C` whenever its start is at most
`L - C`, while trailing windows (there may be more than one) are shorter;
a full window overlaps its successor by exactly `O` characters; the last
window ends exactly at offset `L`; and no character of the text is skipped. -/
theorem chunking_windows_amended (text : List Char) (C O : Nat)
    (hL : 0 < text.length) (hO : O < C) : chunkingSpec text C O := by
  have hs0 : 0 < C - O := by omega
  have hsC : C - O ≤ C := by omega
  refine ⟨_, chunking_ok text C O hO, ?_, ?_, ?_, ?_, ?_, ?_, ?_⟩
  · simp only [List.length_map, List.length_range]
    exact Nat.div_pos (by omega) hs0
  · intro i h
    exact range_map_get _ _ i h
  · intro i h
    rw [range_map_get _ _ i h]
    simp [List.length_take, List.length_drop]
  · intro i h hfull
    rw [range_map_get _ _ i h]
    simp only [List.length_take, List.length_drop]
    generalize hA : i * (C - O) = A at hfull ⊢
    omega
  · intro i hi hi1 hfull
    rw [range_map_get _ _ i hi, range_map_get _ _ (i + 1) hi1]
    constructor
    · rw [List.drop_take, List.drop_drop, List.take_take]
      have e1 : C - (C - O) = O := by omega
      have e2 : i * (C - O) + (C - O) = (i + 1) * (C - O) := (Nat.succ_mul i (C - O)).symm
      have e3 : min O C = O := Nat.min_eq_left (Nat.le_of_lt hO)
      rw [e1, e2, e3]
    · simp only [List.length_drop, List.length_take]
      generalize hA : i * (C - O) = A at hfull ⊢
      omega
  · intro h0
    simp only [List.length_map, List.length_range] at h0 ⊢
    rw [range_map_get _ _ _ (by simp only [List.length_map, List.length_range]; omega)]
    simp only [List.length_take, List.length_drop]
    exact last_window_end text.length (C - O) C hs0 hL hsC
  · intro j hj
    have hb : j / (C - O) < ((List.range ((text.length + (C - O) - 1) / (C - O))).map
        (fun k => (text.drop (k * (C - O))).take C)).length := by
      simp only [List.length_map, List.length_range]
      exact coverage_bound text.length (C - O) j hs0 hj
    refine ⟨j / (C - O), hb, ?_, ?_⟩
    · exact (coverage_in_window text.length (C - O) C j hs0 hsC hj).1
    · rw [range_map_get _ _ _ hb]
      simp only [List.length_take, List.length_drop]
      exact (coverage_in_window text.length (C - O) C j hs0 hsC hj).2

/-- Concrete instance of the amended C2 statement on a 6-character text with
`chunk_size = 4` and `overlap = 2`. -/
theorem chunking_windows_amended_w : chunkingSpec (List.replicate 6 'a') 4 2 :=
  chunking_windows_amended (List.replicate 6 'a') 4 2 (by decide) (by omega)

/-- C7: the retrieval step of `answer_question` explicitly re-sorts the
`(chunk text, distance)` pairs by ascending distance instead of trusting the
index order: the ranked sequence handed to budgeting is a permutation of the
zipped candidates whose adjacent distances are non-decreasing. -/
theorem retrieval_resorted_nondecreasing (documents : List (List Char))
    (distances : List ℚ) :
    List.Perm (rankedCandidates documents distances) (documents.zip distances) ∧
    List.Chain' (fun a b : List Char × ℚ => a.2 ≤ b.2)
      (rankedCandidates documents distances) := by
  constructor
  · exact List.mergeSort_perm _ _
  · have hp : List.Pairwise (fun a b : List Char × ℚ => decide (a.2 ≤ b.2) = true)
        (List.mergeSort (documents.zip distances) (fun a b => decide (a.2 ≤ b.2))) := by
      apply List.sorted_mergeSort
      · intro a b c hab hbc
        simp only [decide_eq_true_eq] at hab hbc ⊢
        exact le_trans hab hbc
      · intro a b
        simp only [Bool.or_eq_true, decide_eq_true_eq]
        exact le_total a.2 b.2
    apply List.Pairwise.chain'
    exact hp.imp (fun h => by simpa using h)

/-- C8: `answer_question` performs exactly one generation-service call; a
failure of that call is surfaced as the single HTTP-500 condition carrying
`"LLM Error: "` plus the error detail (never swallowed, never retried), and a
success returns the generated text together with the number of selected
chunks. -/
theorem generation_failure_surfaced (documents : List (List Char))
    (distances : List ℚ) (gen : List Char → Except (List Char) (List Char))
    (question : List Char) :
    (answer_question documents distances gen question).2 = 1 ∧
    (∀ e, gen (ragPrompt documents distances question) = Except.error e →
      (answer_question documents distances gen question).1 =
        Except.error (500, ("LLM Error: ").data ++ e)) ∧
    (∀ t, gen (ragPrompt documents distances question) = Except.ok t →
      (answer_question documents distances gen question).1 =
        Except.ok (t, (selectedChunks documents distances).length)) := by
  refine ⟨?_, ?_, ?_⟩
  · unfold answer_question
    rcases gen (ragPrompt documents distances question) with e | t <;> rfl
  · intro e he
    unfold answer_question
    rw [he]
  · intro t ht
    unfold answer_question
    rw [ht]

/-- Concrete instance of the C8 theorem: a generation service that raises
is surfaced as the 500 condition with its detail, after exactly one call. -/
theorem generation_failure_surfaced_w :
    (answer_question [] [] (fun _ => Except.error ['x']) []).1 =
      Except.error (500, ("LLM Error: ").data ++ ['x']) ∧
    (answer_question [] [] (fun _ => Except.error ['x']) []).2 = 1 := by
  have h := generation_failure_surfaced [] [] (fun _ => Except.error ['x']) []
  exact ⟨h.2.1 ['x'] rfl, h.1⟩

theorem char_toNat_ofNat {m : Nat} (h : m.isValidChar) : (Char.ofNat m).toNat = m := by
  unfold Char.ofNat
  rw [dif_pos h]
  rfl

theorem toUpper_ne_underscore (c : Char) (hc : c ≠ '_') : c.toUpper ≠ '_' := by
  have hdef : c.toUpper =
      if c.toNat ≥ 97 ∧ c.toNat ≤ 122 then Char.ofNat (c.toNat - 32) else c := rfl
  rw [hdef]
  by_cases h : c.toNat ≥ 97 ∧ c.toNat ≤ 122
  · rw [if_pos h]
    intro heq
    have h1 : (Char.ofNat (c.toNat - 32)).toNat = ('_').toNat := congrArg Char.toNat heq
    have hv : (c.toNat - 32).isValidChar := Or.inl (by omega)
    rw [char_toNat_ofNat hv] at h1
    have h95 : ('_').toNat = 95 := rfl
    omega
  · rw [if_neg h]
    exact hc

theorem toLower_ne_underscore (c : Char) (hc : c ≠ '_') : c.toLower ≠ '_' := by
  have hdef : c.toLower =
      if c.toNat ≥ 65 ∧ c.toNat ≤ 90 then Char.ofNat (c.toNat + 32) else c := rfl
  rw [hdef]
  by_cases h : c.toNat ≥ 65 ∧ c.toNat ≤ 90
  · rw [if_pos h]
    intro heq
    have h1 : (Char.ofNat (c.toNat + 32)).toNat = ('_').toNat := congrArg Char.toNat heq
    have hv : (c.toNat + 32).isValidChar := Or.inl (by omega)
    rw [char_toNat_ofNat hv] at h1
    have h95 : ('_').toNat = 95 := rfl
    omega
  · rw [if_neg h]
    exact hc

theorem splitGo_chars (s : List Char) : ∀ (acc w : List Char), w ∈ splitGo s acc →
    ∀ c, c ∈ w → c ∈ s ∨ c ∈ acc := by
  induction s with
  | nil =>
    intro acc w hw c hc
    unfold splitGo at hw
    split_ifs at hw with h
    · simp at hw
    · simp only [List.mem_singleton] at hw
      subst hw
      exact Or.inr (by simpa using hc)
  | cons ch rest ih =>
    intro acc w hw c hc
    unfold splitGo at hw
    split_ifs at hw with hws hacc
    · rcases ih [] w hw c hc with h1 | h1
      · exact Or.inl (List.mem_cons_of_mem _ h1)
      · simp at h1
    · rcases List.mem_cons.mp hw with h1 | h1
      · subst h1
        exact Or.inr (by simpa using hc)
      · rcases ih [] w h1 c hc with h2 | h2
        · exact Or.inl (List.mem_cons_of_mem _ h2)
        · simp at h2
    · rcases ih (ch :: acc) w hw c hc with h1 | h1
      · exact Or.inl (List.mem_cons_of_mem _ h1)
      · rcases List.mem_cons.mp h1 with h2 | h2
        · subst h2
          exact Or.inl (List.mem_cons_self _ _)
        · exact Or.inr h2

theorem splitGo_word_ne_nil (s : List Char) : ∀ (acc w : List Char),
    w ∈ splitGo s acc → w ≠ [] := by
  induction s with
  | nil =>
    intro acc w hw
    unfold splitGo at hw
    split_ifs at hw with h
    · simp at hw
    · simp only [List.mem_singleton] at hw
      subst hw
      simp only [ne_eq, List.reverse_eq_nil_iff]
      simpa [List.isEmpty_iff] using h
  | cons ch rest ih =>
    intro acc w hw
    unfold splitGo at hw
    split_ifs at hw with hws hacc
    · exact ih [] w hw
    · rcases List.mem_cons.mp hw with h1 | h1
      · subst h1
        simp only [ne_eq, List.reverse_eq_nil_iff]
        simpa [List.isEmpty_iff] using hacc
      · exact ih [] w h1
    · exact ih (ch :: acc) w hw

theorem splitGo_acc_ne_nil (s : List Char) : ∀ acc, acc ≠ [] → splitGo s acc ≠ [] := by
  induction s with
  | nil =>
    intro acc h
    unfold splitGo
    rw [if_neg (by simpa [List.isEmpty_iff] using h)]
    simp
  | cons ch rest ih =>
    intro acc h
    unfold splitGo
    split_ifs with hws hacc
    · exact absurd (by simpa [List.isEmpty_iff] using hacc) h
    · simp
    · exact ih (ch :: acc) (by simp)

theorem splitGo_nonempty (s : List Char) : ∀ acc,
    (∃ c ∈ s, c.isWhitespace = false) → splitGo s acc ≠ [] := by
  induction s with
  | nil =>
    intro acc h
    simp at h
  | cons ch rest ih =>
    intro acc h
    unfold splitGo
    split_ifs with hws hacc
    · apply ih []
      rcases h with ⟨c, hc, hcw⟩
      rcases List.mem_cons.mp hc with rfl | hcr
      · rw [hws] at hcw
        cases hcw
      · exact ⟨c, hcr, hcw⟩
    · simp
    · exact splitGo_acc_ne_nil rest (ch :: acc) (by simp)

theorem dropWhile_head_not (p : Char → Bool) : ∀ (l : List Char) x xs,
    l.dropWhile p = x :: xs → p x = false := by
  intro l
  induction l with
  | nil =>
    intro x xs h
    simp [List.dropWhile] at h
  | cons a as ih =>
    intro x xs h
    rw [List.dropWhile_cons] at h
    by_cases hp : p a = true
    · rw [if_pos hp] at h
      exact ih x xs h
    · rw [if_neg hp] at h
      cases h
      simpa using hp

theorem mem_pyStrip (c : Char) (s : List Char) (h : c ∈ pyStrip s) : c ∈ s := by
  unfold pyStrip at h
  rw [List.mem_reverse] at h
  have h1 : c ∈ (s.dropWhile Char.isWhitespace).reverse :=
    (List.dropWhile_sublist _).subset h
  rw [List.mem_reverse] at h1
  exact (List.dropWhile_sublist _).subset h1

theorem pyStrip_has_solid (s : List Char) (h : pyStrip s ≠ []) :
    ∃ c ∈ pyStrip s, c.isWhitespace = false := by
  unfold pyStrip at h ⊢
  cases hX : ((s.dropWhile Char.isWhitespace).reverse).dropWhile Char.isWhitespace with
  | nil =>
    rw [hX] at h
    simp at h
  | cons x xs =>
    refine ⟨x, ?_, dropWhile_head_not _ _ x xs hX⟩
    simp

theorem intercalate_head_ne_nil (w : List Char) (rest : List (List Char)) (hw : w ≠ []) :
    List.intercalate [' '] (w :: rest) ≠ [] := by
  cases rest with
  | nil => simpa [List.intercalate] using hw
  | cons r rs =>
    show (List.intersperse [' '] (w :: r :: rs)).flatten ≠ []
    rw [List.intersperse_cons₂, List.flatten_cons]
    exact List.append_ne_nil_of_left_ne_nil hw _

theorem intercalate_cons₂ (w r : List Char) (rs : List (List Char)) :
    List.intercalate [' '] (w :: r :: rs) =
      w ++ ([' '] ++ List.intercalate [' '] (r :: rs)) := by
  show (List.intersperse [' '] (w :: r :: rs)).flatten = _
  rw [List.intersperse_cons₂, List.flatten_cons, List.flatten_cons]
  rfl

theorem mem_intercalate_sep (c : Char) : ∀ (l : List (List Char)),
    c ∈ List.intercalate [' '] l → (∃ w ∈ l, c ∈ w) ∨ c = ' ' := by
  intro l
  induction l with
  | nil =>
    intro h
    simp [List.intercalate] at h
  | cons w rest ih =>
    intro h
    cases rest with
    | nil =>
      simp [List.intercalate] at h
      exact Or.inl ⟨w, by simp, h⟩
    | cons r rs =>
      rw [intercalate_cons₂] at h
      rcases List.mem_append.mp h with h1 | h1
      · exact Or.inl ⟨w, by simp, h1⟩
      · rcases List.mem_append.mp h1 with h2 | h2
        · simp at h2
          exact Or.inr h2
        · rcases ih h2 with ⟨u, hu, hcu⟩ | h3
          · exact Or.inl ⟨u, List.mem_cons_of_mem _ hu, hcu⟩
          · exact Or.inr h3

theorem no_underscore_cleanedName (filename : List Char) : '_' ∉ cleanedName filename := by
  intro h
  have h1 : '_' ∈ replaceUnderscores (stripArxivId (stripLeadingNum (removePdf filename))) :=
    mem_pyStrip _ _ h
  unfold replaceUnderscores at h1
  rcases List.mem_map.mp h1 with ⟨c, hc, hmap⟩
  by_cases hcu : c = '_'
  · rw [if_pos hcu] at hmap
    exact absurd hmap (by decide)
  · rw [if_neg hcu] at hmap
    exact hcu hmap

/-- C3 (counterexample): with every strategy failing, the filename `"_.pdf"`
resolves to the title `"_"` — which contains an underscore — and the filename
`".pdf"` resolves to the empty string, refuting both the non-emptiness and
the no-underscore parts of the claim. -/
theorem filename_fallback_cex :
    get_paper_title_multi_strategy envAllFail ("_.pdf").data = (['_'], "filename") ∧
    '_' ∈ (get_paper_title_multi_strategy envAllFail ("_.pdf").data).1 ∧
    get_paper_title_multi_strategy envAllFail (".pdf").data = ([], "filename") := by
  refine ⟨by decide, by decide, by decide⟩

/-- C3 (amended): when the four higher-priority strategies yield no result,
resolution falls through to `clean_filename_as_title` and the provenance is
`filename`; when the cleaned name (extension and recognised prefixes removed,
underscores replaced, trimmed) is non-empty, the returned title is non-empty
and contains no underscore; when the cleaned name is empty, the raw filename
with its `.pdf` occurrences removed is returned instead, which may be empty
or contain underscores. -/
theorem filename_fallback_amended (env : TitleEnv) (filename : List Char)
    (ha : truthy (extract_title_from_arxiv env filename) = false)
    (hm : truthy (extract_title_from_pdf_metadata env) = false)
    (ht : truthy env.pdfTextTitle = false) :
    get_paper_title_multi_strategy env filename = clean_filename_as_title filename ∧
    (get_paper_title_multi_strategy env filename).2 = "filename" ∧
    (cleanedName filename ≠ [] →
      (get_paper_title_multi_strategy env filename).1 ≠ [] ∧
      '_' ∉ (get_paper_title_multi_strategy env filename).1) ∧
    (cleanedName filename = [] →
      (get_paper_title_multi_strategy env filename).1 = removePdf filename) := by
  have heq : get_paper_title_multi_strategy env filename =
      clean_filename_as_title filename := by
    unfold get_paper_title_multi_strategy
    simp [ha, hm, ht]
  have hemp2 : cleanedName filename = [] ∨ (cleanedName filename).isEmpty = false := by
    cases h : (cleanedName filename).isEmpty
    · exact Or.inr rfl
    · exact Or.inl (List.isEmpty_iff.mp h)
  refine ⟨heq, ?_, ?_, ?_⟩
  · rw [heq]
    unfold clean_filename_as_title
    cases h : (cleanedName filename).isEmpty <;> simp [h]
  · intro hne
    have hemp : (cleanedName filename).isEmpty = false := by
      rcases hemp2 with h | h
      · exact absurd h hne
      · exact h
    rw [heq]
    unfold clean_filename_as_title
    simp only [hemp, Bool.not_false, if_true]
    constructor
    · cases hps : pySplit (cleanedName filename) with
      | nil =>
        exact absurd hps (by
          unfold pySplit
          exact splitGo_nonempty _ [] (pyStrip_has_solid _ hne))
      | cons w rest =>
        simp only [List.map_cons]
        apply intercalate_head_ne_nil
        have hwne : w ≠ [] := splitGo_word_ne_nil _ [] w (hps ▸ List.mem_cons_self w rest)
        cases w with
        | nil => exact absurd rfl hwne
        | cons c0 cr => simp [pyCapitalize]
    · intro hmem
      rcases mem_intercalate_sep '_' _ hmem with ⟨cw, hcw, hin⟩ | hsp
      · rcases List.mem_map.mp hcw with ⟨u, hu, rfl⟩
        have huc : ∀ c, c ∈ u → c ∈ cleanedName filename := by
          intro c hc
          rcases splitGo_chars (cleanedName filename) [] u hu c hc with h1 | h1
          · exact h1
          · simp at h1
        cases u with
        | nil => simp [pyCapitalize] at hin
        | cons c0 crest =>
          simp only [pyCapitalize] at hin
          rcases List.mem_cons.mp hin with h2 | h2
          · have hc0 : c0 ∈ cleanedName filename := huc c0 (List.mem_cons_self _ _)
            have hne0 : c0 ≠ '_' :=
              fun hh => no_underscore_cleanedName filename (hh ▸ hc0)
            exact toUpper_ne_underscore c0 hne0 h2.symm
          · rcases List.mem_map.mp h2 with ⟨d, hd, hdm⟩
            have hdc : d ∈ cleanedName filename := huc d (List.mem_cons_of_mem _ hd)
            have hned : d ≠ '_' :=
              fun hh => no_underscore_cleanedName filename (hh ▸ hdc)
            exact toLower_ne_underscore d hned hdm
      · exact absurd hsp (by decide)
  · intro hnil
    rw [heq]
    unfold clean_filename_as_title
    simp [hnil]

/-- Concrete instance of the amended C3 statement: with every strategy
failing, `attention_is_all.pdf` yields a non-empty, underscore-free title. -/
theorem filename_fallback_amended_w :
    cleanedName ("attention_is_all.pdf").data ≠ [] ∧
    (get_paper_title_multi_strategy envAllFail ("attention_is_all.pdf").data).1 ≠ [] ∧
    '_' ∉ (get_paper_title_multi_strategy envAllFail ("attention_is_all.pdf").data).1 := by
  have h := (filename_fallback_amended envAllFail ("attention_is_all.pdf").data
    (by decide) (by decide) (by decide)).2.2.1 (by decide)
  exact ⟨by decide, h.1, h.2⟩

/-- C4: when the filename (with its `.pdf` occurrences removed, as the code
matches it) matches the arXiv identifier pattern and the external lookup on
the matched identifier returns a (non-empty) title, resolution returns that
title with provenance `arxiv`, whatever the pdf metadata, pdf text or
Semantic Scholar environment would have produced. -/
theorem arxiv_priority_overrides (env : TitleEnv) (filename arxiv_id title : List Char)
    (hmatch : arxivMatch (removePdf filename) = some arxiv_id)
    (hlook : env.arxivLookup arxiv_id = some title) (hne : title ≠ []) :
    get_paper_title_multi_strategy env filename = (title, "arxiv") := by
  have hext : extract_title_from_arxiv env filename = some title := by
    unfold extract_title_from_arxiv
    rw [hmatch]
    exact hlook
  have htr : truthy (some title) = true := by
    unfold truthy
    simp [hne]
  unfold get_paper_title_multi_strategy
  rw [hext]
  simp [htr]

/-- Concrete instance of the C4 theorem: `1706.03762v5.pdf` resolves through
the arXiv strategy even though metadata, text scan and Semantic Scholar would
all have answered. -/
theorem arxiv_priority_overrides_w :
    get_paper_title_multi_strategy envArxivHit ("1706.03762v5.pdf").data =
      (("Attention Is All You Need").data, "arxiv") :=
  arxiv_priority_overrides envArxivHit ("1706.03762v5.pdf").data ("1706.03762").data
    (("Attention Is All You Need").data) (by decide) (by decide) (by decide)

/-- C5 (counterexample): the Semantic Scholar search answers HTTP 200 with
one result whose title is the empty string; the claim then demands provenance
`semantic_scholar`, but the code keeps the heuristic title under `pdf_text`
(the empty verified title is falsy at the `if verified_title:` test). -/
theorem semscholar_empty_title_cex :
    envEmptyVerified.semScholar (("Deep Residual Learning").data) =
      some ⟨200, [[]]⟩ ∧
    get_paper_title_multi_strategy envEmptyVerified ("paper7.pdf").data =
      (("Deep Residual Learning").data, "pdf_text") := by
  exact ⟨rfl, by decide⟩

/-- C5 (amended): when the first two strategies fail and the heuristic scan
yields a (truthy) title `t`, verification is attempted on `t`: if the search
returns HTTP 200 with at least one result and the first result title is
non-empty, resolution returns that verified title under `semantic_scholar`;
if the verification yields no usable result (non-200 status, empty result
list, exception, or an empty verified title) resolution keeps `t` under
`pdf_text`. -/
theorem pdftext_verification_amended (env : TitleEnv) (filename t : List Char)
    (ha : truthy (extract_title_from_arxiv env filename) = false)
    (hm : truthy (extract_title_from_pdf_metadata env) = false)
    (ht : env.pdfTextTitle = some t) (htt : t ≠ []) :
    (∀ r v rest, env.semScholar t = some r → r.status = 200 → r.data = v :: rest →
      v ≠ [] → get_paper_title_multi_strategy env filename = (v, "semantic_scholar")) ∧
    (truthy (search_semantic_scholar (env.semScholar t)) = false →
      get_paper_title_multi_strategy env filename = (t, "pdf_text")) := by
  have htr : truthy (some t) = true := by
    unfold truthy
    simp [htt]
  constructor
  · intro r v rest hr hst hd hv
    have hsearch : search_semantic_scholar (env.semScholar t) = some v := by
      rw [hr]
      simp [search_semantic_scholar, hst, hd]
    have hvt : truthy (some v) = true := by
      unfold truthy
      simp [hv]
    unfold get_paper_title_multi_strategy
    simp [ha, hm, ht, htr, hsearch, hvt]
  · intro hfail
    unfold get_paper_title_multi_strategy
    simp [ha, hm, ht, htr, hfail]

/-- Concrete instance of the amended C5 statement: a 200-status verification
with a non-empty best-match title overrides the heuristic title and tags the
result `semantic_scholar`. -/
theorem pdftext_verification_amended_w :
    get_paper_title_multi_strategy envVerified ("paper7.pdf").data =
      (("Deep Residual Learning for Image Recognition").data, "semantic_scholar") :=
  (pdftext_verification_amended envVerified ("paper7.pdf").data
      (("deep residual lerning").data) (by decide) (by decide) rfl (by decide)).1
    ⟨200, [("Deep Residual Learning for Image Recognition").data]⟩
    (("Deep Residual Learning for Image Recognition").data) [] rfl rfl rfl (by decide)

theorem mem_ingest (cache : List Char → Option CacheEntry)
    (docs : List (List Char × Option (List Char))) (e : IndexEntry)
    (he : e ∈ ingestEntries cache docs) :
    ∃ text chunks c, (e.source, some text) ∈ docs ∧
      chunking text 3000 200 = Except.ok chunks ∧ c ∈ chunks ∧
      e.title = cacheTitle cache e.source ∧
      e.doc = titleHeader (cacheTitle cache e.source) ++ c := by
  unfold ingestEntries at he
  rcases List.mem_flatMap.mp he with ⟨⟨f, ot⟩, hp, hd⟩
  unfold docEntries at hd
  dsimp only at hd
  cases ot with
  | none => simp at hd
  | some text =>
    dsimp only at hd
    by_cases hemp : text.isEmpty = true
    · rw [if_pos hemp] at hd
      simp at hd
    · rw [if_neg hemp] at hd
      split at hd
      next chunks hchunk =>
        rcases List.mem_map.mp hd with ⟨c, hc, rfl⟩
        exact ⟨text, chunks, c, hp, hchunk, hc, rfl, rfl⟩
      next msg hchunk =>
        simp at hd

/-- C9: every index entry created by an ingestion run stores as metadata
title exactly the title embedded in its own document text through the
`Paper Title: <title>` prefix line, and its metadata source is the filename
of the document the chunk was derived from (the chunk is one of the chunks
of the text of that document). -/
theorem index_entry_title_consistent (cache : List Char → Option CacheEntry)
    (docs : List (List Char × Option (List Char))) (e : IndexEntry)
    (he : e ∈ ingestEntries cache docs) :
    ∃ text chunks c, (e.source, some text) ∈ docs ∧
      chunking text 3000 200 = Except.ok chunks ∧ c ∈ chunks ∧
      e.doc = ("Paper Title: ").data ++ e.title ++ ['\n', '\n'] ++ c := by
  obtain ⟨text, chunks, c, h1, h2, h3, h4, h5⟩ := mem_ingest cache docs e he
  refine ⟨text, chunks, c, h1, h2, h3, ?_⟩
  rw [h5, ← h4]
  simp [titleHeader, List.append_assoc]

/-- Concrete instance of the C9 theorem on a one-document ingestion run. -/
theorem index_entry_title_consistent_w :
    ∃ text chunks c, (entryW.source, some text) ∈ docsW ∧
      chunking text 3000 200 = Except.ok chunks ∧ c ∈ chunks ∧
      entryW.doc = ("Paper Title: ").data ++ entryW.title ++ ['\n', '\n'] ++ c :=
  index_entry_title_consistent cacheMiss docsW entryW (by decide)

/-- C10: when a pdf filename has no cache entry (or its entry lacks a
`title` field), the raw filename — extension, underscores and all — is used
as the title: the cache lookup returns the filename itself and every entry
derived from that file carries it verbatim as its title (the cleanup routine
is not involved). -/
theorem cache_miss_raw_filename (cache : List Char → Option CacheEntry)
    (f : List Char)
    (hmiss : cache f = none ∨ ∃ en, cache f = some en ∧ en.titleField = none) :
    cacheTitle cache f = f ∧
    ∀ docs e, e ∈ ingestEntries cache docs → e.source = f → e.title = f := by
  have hct : cacheTitle cache f = f := by
    unfold cacheTitle
    rcases hmiss with h | ⟨en, h1, h2⟩
    · rw [h]
    · simp [h1, h2]
  refine ⟨hct, ?_⟩
  intro docs e he hsrc
  obtain ⟨text, chunks, c, h1, h2, h3, h4, h5⟩ := mem_ingest cache docs e he
  rw [h4, hsrc, hct]

/-- Concrete instance of the C10 theorem: with an empty cache the file
`my_paper.pdf` keeps its raw name — underscore and `.pdf` included — as the
stored title of its entry, and that raw name differs from what the cleanup
routine would have produced. -/
theorem cache_miss_raw_filename_w :
    cacheTitle cacheMiss (("my_paper.pdf").data) = ("my_paper.pdf").data ∧
    entryW2.title = ("my_paper.pdf").data ∧
    '_' ∈ (("my_paper.pdf").data) ∧
    (("my_paper.pdf").data) ≠ (clean_filename_as_title (("my_paper.pdf").data)).1 := by
  have h := cache_miss_raw_filename cacheMiss (("my_paper.pdf").data) (Or.inl rfl)
  exact ⟨h.1, h.2 docsW2 entryW2 (by decide) rfl, by decide, by decide⟩

